import Mathlib

/-!
Verification of the `pj` project-discovery engine.

Shallow embedding of the Go sources:
- `internal/discover/discover.go` (marker resolution, tree walking, orchestrator collection),
- the ignore stack (`IgnoreStack`: `Enter`, `Leave`, `ShouldIgnore`),
- `internal/cache` (`Get`, `computeConfigHash`).

Modelling conventions:
- Go `int` becomes `Int`; Go strings become `String`.
- Go maps (`map[string]int`) become association lists with Go's zero-value
  lookup semantics (`mapGet` returns 0 for an absent key).
- Filesystem paths are lists of components (an absolute path is the list of
  components below the filesystem root).
- External collaborators that are not part of this repository are parameters:
  the SHA-256 hash is an opaque `String → String` argument, `filepath.Match`
  is an opaque `String → String → Bool` argument, a compiled gitignore
  matcher (library `sabhiram/go-gitignore`) is a `String → Bool` function on
  the slash-joined relative path, and JSON decoding is a
  `String → Option (List Project)` argument.
- Filesystem I/O is modelled as total: transient stat/read errors, which the
  Go code swallows or propagates verbatim, are outside the model.
-/

namespace PJ

/-- A discovered project directory (struct `Project` in discover.go). -/
structure Project where
  Path : String
  Marker : String
  Priority : Int
deriving DecidableEq

/-- The parts of `config.Config` consumed by the discovery engine and the
cache (config.go, struct `Config`). -/
structure Config where
  SearchPaths : List String
  Markers : List String
  MaxDepth : Int
  Excludes : List String
  CacheTTL : Int
  NoIgnore : Bool
  Nested : Bool
  Priorities : List (String × Int)
  ExactMarkers : List String
  PatternMarkers : List String

/-- Go map lookup `m[k]` for a `map[string]int`: the stored value when the
key is present, the zero value 0 when it is absent. -/
def mapGet (m : List (String × Int)) (k : String) : Int :=
  match m.find? (fun kv => kv.1 = k) with
  | some kv => kv.2
  | none => 0

/-- The built-in `markerSpecificity` table of discover.go. -/
def markerSpecificity : List (String × Int) :=
  [(".git", 1), ("Makefile", 1), ("package.json", 7), ("Cargo.toml", 10),
   ("go.mod", 10), ("pyproject.toml", 10), ("flake.nix", 3), ("pom.xml", 10),
   ("build.gradle", 10), ("CMakeLists.txt", 10), (".vscode", 5), (".idea", 5),
   (".fleet", 5), (".project", 5), (".zed", 5), ("Dockerfile", 7)]

/-- `Discoverer.getMarkerPriority` (discover.go): the explicit configured
priority if its map lookup is nonzero, else the specificity table entry if
nonzero, else 1. -/
def getMarkerPriority (prios : List (String × Int)) (marker : String) : Int :=
  let priority := mapGet prios marker
  let priority := if priority = 0 then mapGet markerSpecificity marker else priority
  if priority = 0 then 1 else priority

/-- The fallback priority used when the configured map lookup yields 0:
the specificity table entry, else the default 1. -/
def fallbackPriority (marker : String) : Int :=
  if mapGet markerSpecificity marker = 0 then 1 else mapGet markerSpecificity marker

/-! ### Cache manager: config hash (cache.go, `computeConfigHash`) -/

/-- `sort.Strings` on a copy of the list (lexicographic). -/
def sortStrings (l : List String) : List String :=
  l.insertionSort (fun a b => a ≤ b)

/-- Go `fmt.Sprintf("%t", b)`. -/
def boolString (b : Bool) : String :=
  if b then "true" else "false"

/-- The exact byte stream `computeConfigHash` feeds to the SHA-256 hasher:
sorted `SearchPaths` joined with `|`, then sorted `Markers`, then sorted
`Excludes`, then `MaxDepth` and `NoIgnore` formatted. `Nested` and
`CacheTTL` are never written. -/
def configHashInput (c : Config) : String :=
  String.intercalate "|" (sortStrings c.SearchPaths) ++
  String.intercalate "|" (sortStrings c.Markers) ++
  String.intercalate "|" (sortStrings c.Excludes) ++
  toString c.MaxDepth ++
  boolString c.NoIgnore

/-- `computeConfigHash`, parameterised by the (deterministic) hash function
(`sha256` plus hex truncation in the source). -/
def computeConfigHash (hash : String → String) (c : Config) : String :=
  hash (configHashInput c)

/-- The two configurations of the repository test
`TestComputeConfigHash / "different Nested produces different hash"`
(cache_test.go): identical except for `Nested`. -/
def cfgNestedFalse : Config :=
  { SearchPaths := ["/path1"], Markers := [".git"], MaxDepth := 3,
    Excludes := [], CacheTTL := 0, NoIgnore := false, Nested := false,
    Priorities := [], ExactMarkers := [], PatternMarkers := [] }

/-- Same configuration with `Nested := true`. -/
def cfgNestedTrue : Config :=
  { cfgNestedFalse with Nested := true }

/-! ### C10: getMarkerPriority never returns 0 -/

/-- C10: `getMarkerPriority` never returns 0; a configured priority whose
map lookup is 0 (explicit 0 entry or absent key, indistinguishable in Go)
falls back to the specificity table and then to 1; a negative configured
priority is returned as-is. -/
theorem getMarkerPriority_spec (prios : List (String × Int)) (marker : String) :
    getMarkerPriority prios marker ≠ 0 ∧
    (mapGet prios marker = 0 →
      getMarkerPriority prios marker = fallbackPriority marker) ∧
    (mapGet prios marker < 0 →
      getMarkerPriority prios marker = mapGet prios marker) := by
  unfold getMarkerPriority fallbackPriority
  refine ⟨?_, ?_, ?_⟩
  · by_cases h1 : mapGet prios marker = 0
    · by_cases h2 : mapGet markerSpecificity marker = 0 <;> simp [h1, h2]
    · simp [h1]
  · intro h1
    by_cases h2 : mapGet markerSpecificity marker = 0 <;> simp [h1, h2]
  · intro h1
    have h0 : mapGet prios marker ≠ 0 := by omega
    simp [h0]

/-- Witness for C10 at a concrete priority map: `"x"` configured with
explicit priority 0 falls back (to the default 1, since `"x"` is not in the
specificity table), and `"y"` configured with priority -2 keeps -2. -/
theorem getMarkerPriority_spec_witness :
    getMarkerPriority [("x", 0), ("y", -2)] "x" = fallbackPriority "x" ∧
    getMarkerPriority [("x", 0), ("y", -2)] "y" = -2 :=
  ⟨(getMarkerPriority_spec [("x", 0), ("y", -2)] "x").2.1 (by decide),
   (getMarkerPriority_spec [("x", 0), ("y", -2)] "y").2.2 (by decide)⟩

/-! ### C1: the config hash ignores `Nested` (code bug) -/

/-- C1 (code bug): `computeConfigHash` never feeds `Nested` to the hasher,
so the two configurations of the repository's own test
`"different Nested produces different hash"` — which asserts the hashes
differ — receive the same hash (hence the same cache file) under every
hash function, in particular SHA-256. -/
theorem configHash_ignores_Nested (hash : String → String) :
    computeConfigHash hash cfgNestedFalse = computeConfigHash hash cfgNestedTrue :=
  rfl

/-! ### C4: the config hash is order-independent in the list fields -/

theorem sortStrings_perm {l₁ l₂ : List String} (h : l₁.Perm l₂) :
    sortStrings l₁ = sortStrings l₂ := by
  haveI : IsTotal String (fun a b : String => a ≤ b) := ⟨fun a b => le_total a b⟩
  haveI : IsTrans String (fun a b : String => a ≤ b) :=
    ⟨fun _ _ _ h1 h2 => le_trans h1 h2⟩
  haveI : IsAntisymm String (fun a b : String => a ≤ b) :=
    ⟨fun _ _ h1 h2 => le_antisymm h1 h2⟩
  exact List.eq_of_perm_of_sorted
    (((l₁.perm_insertionSort _).trans h).trans (l₂.perm_insertionSort _).symm)
    (List.sorted_insertionSort _ l₁) (List.sorted_insertionSort _ l₂)

/-- C4: permuting `SearchPaths`, `Markers`, or `Excludes` (all else equal)
does not change the computed config hash: each list is sorted before being
written to the hasher. -/
theorem configHash_perm_invariant (hash : String → String) (c : Config)
    (paths markers excludes : List String)
    (hp : paths.Perm c.SearchPaths) (hm : markers.Perm c.Markers)
    (he : excludes.Perm c.Excludes) :
    computeConfigHash hash
      { c with SearchPaths := paths, Markers := markers, Excludes := excludes } =
    computeConfigHash hash c := by
  unfold computeConfigHash configHashInput
  rw [sortStrings_perm hp, sortStrings_perm hm, sortStrings_perm he]

/-- A small concrete configuration used to witness C4. -/
def cfgOrderA : Config :=
  { SearchPaths := ["/a", "/b"], Markers := [".git", "go.mod"], MaxDepth := 3,
    Excludes := ["node_modules", "vendor"], CacheTTL := 0, NoIgnore := false,
    Nested := false, Priorities := [], ExactMarkers := [], PatternMarkers := [] }

/-- Witness for C4: reordering the search roots, markers and excludes of a
concrete configuration leaves the hash unchanged (instantiated at the
identity in place of the opaque SHA-256, which only ever sees the already
equal hash inputs). -/
theorem configHash_perm_invariant_witness :
    computeConfigHash (fun s => s)
      { cfgOrderA with
          SearchPaths := ["/b", "/a"],
          Markers := ["go.mod", ".git"],
          Excludes := ["vendor", "node_modules"] } =
    computeConfigHash (fun s => s) cfgOrderA :=
  configHash_perm_invariant (fun s => s) cfgOrderA
    ["/b", "/a"] ["go.mod", ".git"] ["vendor", "node_modules"]
    (by decide) (by decide) (by decide)

/-! ### Cache manager: Get (cache.go, `Manager.Get`) -/

/-- The three cache-miss reasons distinguished by `Get`. -/
inductive CacheMiss where
  | notFound
  | expired
  | corrupt
deriving DecidableEq

/-- What `Get` observes about the cache file: its modification time (in
seconds) and its raw content. -/
structure CacheFile where
  modTime : Int
  content : String

/-- `Manager.Get` (cache.go): stat the cache file (absent ⇒ not-found
miss); if `now - modTime` exceeds the TTL, report expiry before the file
is even read; then JSON-decode (failure ⇒ corrupt miss); otherwise return
the project list. `parse` stands for `json.Unmarshal`, `now` and `ttl`
are in seconds. -/
def cacheGet (parse : String → Option (List Project)) (file : Option CacheFile)
    (now ttl : Int) : Except CacheMiss (List Project) :=
  match file with
  | none => .error .notFound
  | some f =>
    if ttl < now - f.modTime then .error .expired
    else
      match parse f.content with
      | none => .error .corrupt
      | some projects => .ok projects

/-- C3: `Get` has exactly three miss outcomes and one success: not-found
when the file is absent; expired when `now - modTime > ttl`, regardless of
whether the content would parse (the expiry check precedes the read);
corrupt when within the TTL the content fails to parse; and the decoded
list otherwise. -/
theorem cacheGet_spec (parse : String → Option (List Project))
    (file : Option CacheFile) (now ttl : Int) :
    (file = none → cacheGet parse file now ttl = .error .notFound) ∧
    (∀ f, file = some f → ttl < now - f.modTime →
      cacheGet parse file now ttl = .error .expired) ∧
    (∀ f, file = some f → now - f.modTime ≤ ttl → parse f.content = none →
      cacheGet parse file now ttl = .error .corrupt) ∧
    (∀ f projects, file = some f → now - f.modTime ≤ ttl →
      parse f.content = some projects →
      cacheGet parse file now ttl = .ok projects) := by
  refine ⟨?_, ?_, ?_, ?_⟩
  · intro h; rw [h]; rfl
  · intro f hf hexp
    rw [hf]
    simp [cacheGet, if_pos hexp]
  · intro f hf hage hparse
    rw [hf]
    simp [cacheGet, if_neg (not_lt.mpr hage), hparse]
  · intro f projects hf hage hparse
    rw [hf]
    simp [cacheGet, if_neg (not_lt.mpr hage), hparse]

/-- A concrete stand-in for `json.Unmarshal` used by witnesses: decodes the
single string `"[]"` to the empty project list. -/
def parseEmptyOnly (s : String) : Option (List Project) :=
  if s = "[]" then some [] else none

/-- Witness for C3 at concrete inputs: an absent file is a not-found miss;
a file whose age 100s exceeds the TTL of 60s is an expired miss even
though its content `"[]"` parses; a fresh file with unparsable content is
a corrupt miss; a fresh parsable file yields the list. -/
theorem cacheGet_spec_witness :
    cacheGet parseEmptyOnly none 100 60 = .error .notFound ∧
    cacheGet parseEmptyOnly (some ⟨0, "[]"⟩) 100 60 = .error .expired ∧
    cacheGet parseEmptyOnly (some ⟨90, "bad"⟩) 100 60 = .error .corrupt ∧
    cacheGet parseEmptyOnly (some ⟨90, "[]"⟩) 100 60 = .ok [] :=
  ⟨(cacheGet_spec parseEmptyOnly none 100 60).1 rfl,
   (cacheGet_spec parseEmptyOnly (some ⟨0, "[]"⟩) 100 60).2.1 ⟨0, "[]"⟩ rfl
     (by decide),
   (cacheGet_spec parseEmptyOnly (some ⟨90, "bad"⟩) 100 60).2.2.1 ⟨90, "bad"⟩
     rfl (by decide) (by decide),
   (cacheGet_spec parseEmptyOnly (some ⟨90, "[]"⟩) 100 60).2.2.2 ⟨90, "[]"⟩ []
     rfl (by decide) (by decide)⟩

/-! ### Marker resolver (discover.go, `walkPath` phases 1–2,
`checkPatternMarkers`) -/

/-- `strings.HasSuffix` (kernel-computable model via character lists). -/
def strEndsWith (s t : String) : Bool :=
  t.data.isSuffixOf s.data

/-- `strings.HasPrefix` (kernel-computable model via character lists). -/
def strStartsWith (s t : String) : Bool :=
  t.data.isPrefixOf s.data

/-- `s[1:]` on a string (kernel-computable model via character lists). -/
def strDropFirst (s : String) : String :=
  ⟨s.data.drop 1⟩

/-- `s[:len(s)-1]` on a string (kernel-computable model via character
lists). -/
def strDropLast (s : String) : String :=
  ⟨s.data.dropLast⟩

/-- One entry of a directory listing (`os.ReadDir` result): name and
whether it is itself a directory. -/
structure DirEntry where
  name : String
  isDir : Bool
deriving DecidableEq

/-- `os.Stat(filepath.Join(dir, name))` succeeds: some entry (file or
directory) of the directory has that name. -/
def hasEntry (entries : List DirEntry) (name : String) : Bool :=
  entries.any (fun e => e.name = name)

/-- Phase 1 of `walkPath`: for each exact marker in configured order, if it
exists in the directory and its priority strictly beats the best so far
(initially priority 0), it becomes the new best. -/
def checkExactMarkers (prios : List (String × Int)) (exactMarkers : List String)
    (entries : List DirEntry) : String × Int :=
  exactMarkers.foldl
    (fun best marker =>
      if hasEntry entries marker then
        let priority := getMarkerPriority prios marker
        if best.2 < priority then (marker, priority) else best
      else best)
    ("", 0)

/-- `Discoverer.checkPatternMarkers`: for each pattern in configured order,
scan the directory listing for the first non-directory entry whose name
matches the pattern (`fpMatch` stands for `filepath.Match`); if the
pattern's priority strictly beats the best so far, the matched entry's
name becomes the best marker. -/
def checkPatternMarkers (fpMatch : String → String → Bool)
    (prios : List (String × Int)) (patternMarkers : List String)
    (entries : List DirEntry) : String × Int :=
  patternMarkers.foldl
    (fun best pattern =>
      match entries.find? (fun e => !e.isDir && fpMatch pattern e.name) with
      | some e =>
        let priority := getMarkerPriority prios pattern
        if best.2 < priority then (e.name, priority) else best
      | none => best)
    ("", 0)

/-- The marker-resolution fragment of `walkPath` (lines 160–182): run the
exact phase, then — only when pattern markers are configured — the pattern
phase, which replaces the exact result only on strictly greater priority. -/
def resolveMarkers (fpMatch : String → String → Bool)
    (prios : List (String × Int)) (exactMarkers patternMarkers : List String)
    (entries : List DirEntry) : String × Int :=
  let best := checkExactMarkers prios exactMarkers entries
  if patternMarkers.length > 0 then
    let patternBest := checkPatternMarkers fpMatch prios patternMarkers entries
    if best.2 < patternBest.2 then patternBest else best
  else best

/-- The running maximum of the priorities of the markers of `l` present in
`entries`, starting from `t` (the exact phase keeps exactly this as its
best priority). -/
def bestFrom (prios : List (String × Int)) (entries : List DirEntry) (t : Int)
    (l : List String) : Int :=
  l.foldl
    (fun acc m =>
      if hasEntry entries m then max acc (getMarkerPriority prios m) else acc)
    t

/-- The best exact-phase priority: maximum of 0 and the priorities of the
configured exact markers present in the directory. -/
def bestExactPrio (prios : List (String × Int)) (exactMarkers : List String)
    (entries : List DirEntry) : Int :=
  bestFrom prios entries 0 exactMarkers

theorem le_bestFrom (prios : List (String × Int)) (entries : List DirEntry) :
    ∀ (l : List String) (t : Int), t ≤ bestFrom prios entries t l := by
  intro l
  induction l with
  | nil => intro t; exact le_refl t
  | cons m rest ih =>
    intro t
    show t ≤ bestFrom prios entries
      (if hasEntry entries m then max t (getMarkerPriority prios m) else t) rest
    by_cases h : hasEntry entries m
    · simp only [h, if_true]
      exact le_trans (le_max_left _ _) (ih _)
    · simp only [h, if_false]
      exact ih t

theorem prio_le_bestFrom (prios : List (String × Int)) (entries : List DirEntry) :
    ∀ (l : List String) (t : Int) (m : String), m ∈ l → hasEntry entries m = true →
      getMarkerPriority prios m ≤ bestFrom prios entries t l := by
  intro l
  induction l with
  | nil => intro t m hm; exact absurd hm (List.not_mem_nil m)
  | cons a rest ih =>
    intro t m hm hpresent
    rcases List.mem_cons.mp hm with heq | hmem
    · subst heq
      show getMarkerPriority prios m ≤ bestFrom prios entries
        (if hasEntry entries m then max t (getMarkerPriority prios m) else t) rest
      rw [if_pos hpresent]
      exact le_trans (le_max_right _ _) (le_bestFrom prios entries rest _)
    · show getMarkerPriority prios m ≤ bestFrom prios entries
        (if hasEntry entries a then max t (getMarkerPriority prios a) else t) rest
      by_cases h : hasEntry entries a
      · rw [if_pos h]; exact ih _ m hmem hpresent
      · rw [if_neg h]; exact ih t m hmem hpresent

/-- How the exact-phase fold relates to `bestFrom`, generalised over the
accumulator: the final best priority is the running maximum; if nothing
beats the accumulator the fold leaves it unchanged; and if something does,
the fold returns the first configured marker that is present and attains
the running maximum, paired with its priority. -/
theorem checkExact_fold_spec (prios : List (String × Int)) (entries : List DirEntry) :
    ∀ (l : List String) (b : String × Int),
      (l.foldl
        (fun best marker =>
          if hasEntry entries marker then
            let priority := getMarkerPriority prios marker
            if best.2 < priority then (marker, priority) else best
          else best) b).2 = bestFrom prios entries b.2 l ∧
      (bestFrom prios entries b.2 l = b.2 →
        l.foldl
          (fun best marker =>
            if hasEntry entries marker then
              let priority := getMarkerPriority prios marker
              if best.2 < priority then (marker, priority) else best
            else best) b = b) ∧
      (b.2 < bestFrom prios entries b.2 l →
        ∃ m, l.find?
            (fun x => hasEntry entries x &&
              (getMarkerPriority prios x == bestFrom prios entries b.2 l)) = some m ∧
          l.foldl
            (fun best marker =>
              if hasEntry entries marker then
                let priority := getMarkerPriority prios marker
                if best.2 < priority then (marker, priority) else best
              else best) b = (m, getMarkerPriority prios m)) := by
  intro l
  induction l with
  | nil =>
    intro b
    refine ⟨rfl, fun _ => rfl, fun h => absurd h (lt_irrefl _)⟩
  | cons a rest ih =>
    intro b
    by_cases hpresent : hasEntry entries a
    · by_cases hbeat : b.2 < getMarkerPriority prios a
      · -- the head marker is present and beats the accumulator
        have hstep : bestFrom prios entries b.2 (a :: rest) =
            bestFrom prios entries (getMarkerPriority prios a) rest := by
          show bestFrom prios entries
            (if hasEntry entries a then max b.2 (getMarkerPriority prios a) else b.2)
            rest = _
          rw [if_pos hpresent, max_eq_right (le_of_lt hbeat)]
        have hfold : (a :: rest).foldl
            (fun best marker =>
              if hasEntry entries marker then
                let priority := getMarkerPriority prios marker
                if best.2 < priority then (marker, priority) else best
              else best) b =
            rest.foldl
              (fun best marker =>
                if hasEntry entries marker then
                  let priority := getMarkerPriority prios marker
                  if best.2 < priority then (marker, priority) else best
                else best) (a, getMarkerPriority prios a) := by
          show rest.foldl _
            (if hasEntry entries a then
              if b.2 < getMarkerPriority prios a then (a, getMarkerPriority prios a)
              else b
            else b) = _
          rw [if_pos hpresent, if_pos hbeat]
        obtain ⟨ih1, ih2, ih3⟩ := ih (a, getMarkerPriority prios a)
        have hle : getMarkerPriority prios a ≤
            bestFrom prios entries (getMarkerPriority prios a) rest :=
          le_bestFrom prios entries rest _
        refine ⟨by rw [hfold, hstep]; exact ih1, ?_, ?_⟩
        · intro heq
          exfalso
          rw [hstep] at heq
          omega
        · intro _
          rcases lt_or_eq_of_le hle with hlt | heq
          · obtain ⟨m, hfind, hres⟩ := ih3 hlt
            refine ⟨m, ?_, by rw [hfold]; exact hres⟩
            rw [List.find?_cons_of_neg, hstep]
            · exact hfind
            · simp only [Bool.and_eq_true, beq_iff_eq, not_and, hstep]
              intro _
              omega
          · refine ⟨a, ?_, by rw [hfold]; exact ih2 heq.symm⟩
            rw [List.find?_cons_of_pos]
            simp only [Bool.and_eq_true, beq_iff_eq, hpresent, true_and, hstep]
            omega
      · -- the head marker is present but does not beat the accumulator
        have hstep : bestFrom prios entries b.2 (a :: rest) =
            bestFrom prios entries b.2 rest := by
          show bestFrom prios entries
            (if hasEntry entries a then max b.2 (getMarkerPriority prios a) else b.2)
            rest = _
          rw [if_pos hpresent, max_eq_left (not_lt.mp hbeat)]
        have hfold : (a :: rest).foldl
            (fun best marker =>
              if hasEntry entries marker then
                let priority := getMarkerPriority prios marker
                if best.2 < priority then (marker, priority) else best
              else best) b =
            rest.foldl
              (fun best marker =>
                if hasEntry entries marker then
                  let priority := getMarkerPriority prios marker
                  if best.2 < priority then (marker, priority) else best
                else best) b := by
          show rest.foldl _
            (if hasEntry entries a then
              if b.2 < getMarkerPriority prios a then (a, getMarkerPriority prios a)
              else b
            else b) = _
          rw [if_pos hpresent, if_neg hbeat]
        obtain ⟨ih1, ih2, ih3⟩ := ih b
        refine ⟨by rw [hfold, hstep]; exact ih1, ?_, ?_⟩
        · intro heq
          rw [hfold]
          exact ih2 (by rw [← hstep]; exact heq)
        · intro hlt
          rw [hstep] at hlt
          obtain ⟨m, hfind, hres⟩ := ih3 hlt
          refine ⟨m, ?_, by rw [hfold]; exact hres⟩
          rw [List.find?_cons_of_neg, hstep]
          · exact hfind
          · simp only [Bool.and_eq_true, beq_iff_eq, not_and]
            intro _
            omega
    · -- the head marker is absent from the directory
      have hstep : bestFrom prios entries b.2 (a :: rest) =
          bestFrom prios entries b.2 rest := by
        show bestFrom prios entries
          (if hasEntry entries a then max b.2 (getMarkerPriority prios a) else b.2)
          rest = _
        rw [if_neg hpresent]
      have hfold : (a :: rest).foldl
          (fun best marker =>
            if hasEntry entries marker then
              let priority := getMarkerPriority prios marker
              if best.2 < priority then (marker, priority) else best
            else best) b =
          rest.foldl
            (fun best marker =>
              if hasEntry entries marker then
                let priority := getMarkerPriority prios marker
                if best.2 < priority then (marker, priority) else best
              else best) b := by
        show rest.foldl _
          (if hasEntry entries a then
            if b.2 < getMarkerPriority prios a then (a, getMarkerPriority prios a)
            else b
          else b) = _
        rw [if_neg hpresent]
      obtain ⟨ih1, ih2, ih3⟩ := ih b
      refine ⟨by rw [hfold, hstep]; exact ih1, ?_, ?_⟩
      · intro heq
        rw [hfold]
        exact ih2 (by rw [← hstep]; exact heq)
      · intro hlt
        rw [hstep] at hlt
        obtain ⟨m, hfind, hres⟩ := ih3 hlt
        refine ⟨m, ?_, by rw [hfold]; exact hres⟩
        rw [List.find?_cons_of_neg, hstep]
        · exact hfind
        · simp only [hpresent, Bool.false_and, Bool.false_eq_true, not_false_eq_true]

theorem checkExactMarkers_snd_eq (prios : List (String × Int))
    (exactMarkers : List String) (entries : List DirEntry) :
    (checkExactMarkers prios exactMarkers entries).2 =
      bestExactPrio prios exactMarkers entries :=
  (checkExact_fold_spec prios entries exactMarkers ("", 0)).1

theorem checkExactMarkers_snd_nonneg (prios : List (String × Int))
    (exactMarkers : List String) (entries : List DirEntry) :
    0 ≤ (checkExactMarkers prios exactMarkers entries).2 := by
  rw [checkExactMarkers_snd_eq]
  exact le_bestFrom prios entries exactMarkers 0

theorem checkPatternMarkers_snd_nonneg (fpMatch : String → String → Bool)
    (prios : List (String × Int)) (entries : List DirEntry) :
    ∀ (patternMarkers : List String) (b : String × Int), 0 ≤ b.2 →
      0 ≤ (patternMarkers.foldl
        (fun best pattern =>
          match entries.find? (fun e => !e.isDir && fpMatch pattern e.name) with
          | some e =>
            let priority := getMarkerPriority prios pattern
            if best.2 < priority then (e.name, priority) else best
          | none => best) b).2 := by
  intro pats
  induction pats with
  | nil => intro b hb; exact hb
  | cons pat rest ih =>
    intro b hb
    rw [List.foldl_cons]
    cases hfind : entries.find? (fun e => !e.isDir && fpMatch pat e.name) with
    | none =>
      simp only [hfind]
      exact ih b hb
    | some e =>
      simp only [hfind]
      by_cases hbeat : b.2 < getMarkerPriority prios pat
      · rw [if_pos hbeat]
        exact ih (e.name, getMarkerPriority prios pat)
          (le_of_lt (lt_of_le_of_lt hb hbeat))
      · rw [if_neg hbeat]
        exact ih b hb

/-- C2 (amended): the overall winner is the higher-priority result of the
two phases, with the exact phase kept on ties (the pattern result replaces
it only on strictly greater priority); and — provided every configured
exact marker resolves to a positive priority, which holds unless a
negative priority is explicitly configured — the exact phase keeps, among
the markers present in the directory, the first one in configured order
attaining the highest priority. -/
theorem resolveMarkers_spec (fpMatch : String → String → Bool)
    (prios : List (String × Int)) (exactMarkers patternMarkers : List String)
    (entries : List DirEntry)
    (hpos : ∀ m ∈ exactMarkers, 0 < getMarkerPriority prios m) :
    (resolveMarkers fpMatch prios exactMarkers patternMarkers entries).2 =
      max (checkExactMarkers prios exactMarkers entries).2
        (checkPatternMarkers fpMatch prios patternMarkers entries).2 ∧
    ((checkPatternMarkers fpMatch prios patternMarkers entries).2 ≤
        (checkExactMarkers prios exactMarkers entries).2 →
      resolveMarkers fpMatch prios exactMarkers patternMarkers entries =
        checkExactMarkers prios exactMarkers entries) ∧
    ((checkExactMarkers prios exactMarkers entries).2 <
        (checkPatternMarkers fpMatch prios patternMarkers entries).2 →
      resolveMarkers fpMatch prios exactMarkers patternMarkers entries =
        checkPatternMarkers fpMatch prios patternMarkers entries) ∧
    (checkExactMarkers prios exactMarkers entries).2 =
      bestExactPrio prios exactMarkers entries ∧
    (∀ m ∈ exactMarkers, hasEntry entries m = true →
      exactMarkers.find?
          (fun x => hasEntry entries x &&
            (getMarkerPriority prios x == bestExactPrio prios exactMarkers entries)) =
        some (checkExactMarkers prios exactMarkers entries).1 ∧
      (checkExactMarkers prios exactMarkers entries).2 =
        getMarkerPriority prios (checkExactMarkers prios exactMarkers entries).1) := by
  have hexact := checkExactMarkers_snd_eq prios exactMarkers entries
  have henn := checkExactMarkers_snd_nonneg prios exactMarkers entries
  have hcombine :
      (resolveMarkers fpMatch prios exactMarkers patternMarkers entries).2 =
        max (checkExactMarkers prios exactMarkers entries).2
          (checkPatternMarkers fpMatch prios patternMarkers entries).2 ∧
      ((checkPatternMarkers fpMatch prios patternMarkers entries).2 ≤
          (checkExactMarkers prios exactMarkers entries).2 →
        resolveMarkers fpMatch prios exactMarkers patternMarkers entries =
          checkExactMarkers prios exactMarkers entries) ∧
      ((checkExactMarkers prios exactMarkers entries).2 <
          (checkPatternMarkers fpMatch prios patternMarkers entries).2 →
        resolveMarkers fpMatch prios exactMarkers patternMarkers entries =
          checkPatternMarkers fpMatch prios patternMarkers entries) := by
    have hres : resolveMarkers fpMatch prios exactMarkers patternMarkers entries =
        if 0 < patternMarkers.length then
          if (checkExactMarkers prios exactMarkers entries).2 <
              (checkPatternMarkers fpMatch prios patternMarkers entries).2 then
            checkPatternMarkers fpMatch prios patternMarkers entries
          else checkExactMarkers prios exactMarkers entries
        else checkExactMarkers prios exactMarkers entries := rfl
    rw [hres]
    by_cases hlen : 0 < patternMarkers.length
    · rw [if_pos hlen]
      by_cases hbeat : (checkExactMarkers prios exactMarkers entries).2 <
          (checkPatternMarkers fpMatch prios patternMarkers entries).2
      · rw [if_pos hbeat]
        exact ⟨(max_eq_right (le_of_lt hbeat)).symm,
          fun hle => absurd hbeat (not_lt.mpr hle), fun _ => rfl⟩
      · rw [if_neg hbeat]
        exact ⟨(max_eq_left (not_lt.mp hbeat)).symm,
          fun _ => rfl, fun h => absurd h hbeat⟩
    · rw [if_neg hlen]
      have hpnil : patternMarkers = [] := by
        cases patternMarkers with
        | nil => rfl
        | cons pat rest => exact absurd (Nat.succ_pos rest.length) hlen
      subst hpnil
      have hp : checkPatternMarkers fpMatch prios [] entries = ("", 0) := rfl
      rw [hp]
      refine ⟨?_, fun _ => rfl, fun h => ?_⟩
      · exact (max_eq_left henn).symm
      · exact absurd h (not_lt.mpr henn)
  refine ⟨hcombine.1, hcombine.2.1, hcombine.2.2, hexact, ?_⟩
  intro m hm hpresent
  have hlt : 0 < bestExactPrio prios exactMarkers entries :=
    lt_of_lt_of_le (hpos m hm) (prio_le_bestFrom prios entries exactMarkers 0 m hm hpresent)
  obtain ⟨m', hfind, hres⟩ :=
    (checkExact_fold_spec prios entries exactMarkers ("", 0)).2.2 hlt
  refine ⟨?_, ?_⟩
  · show exactMarkers.find? _ = _
    rw [show (checkExactMarkers prios exactMarkers entries).1 = m' from by
      rw [show checkExactMarkers prios exactMarkers entries =
        (m', getMarkerPriority prios m') from hres]]
    exact hfind
  · rw [show checkExactMarkers prios exactMarkers entries =
      (m', getMarkerPriority prios m') from hres]

/-- Counterexample to C2 as frozen: with marker `"m"` configured with
explicit negative priority -1, `"m"` is the only exact marker and it
exists in the directory, yet the exact phase keeps nothing — the claim
says the highest-priority present marker (`"m"`, priority -1) is kept. A
present marker with non-positive resolved priority never beats the
initial best priority 0. -/
theorem checkExactMarkers_negative_counterexample :
    hasEntry [⟨"m", false⟩] "m" = true ∧
    getMarkerPriority [("m", -1)] "m" = -1 ∧
    checkExactMarkers [("m", -1)] ["m"] [⟨"m", false⟩] = ("", 0) := by
  decide

/-- A concrete directory listing holding a `.git` directory and a `go.mod`
file. -/
def dirGitGoMod : List DirEntry := [⟨".git", true⟩, ⟨"go.mod", false⟩]

/-- Witness for C2 at a concrete directory: exact markers `.git` (builtin
priority 1) and `go.mod` (builtin priority 10), both present; the exact
phase keeps `go.mod`, and with no pattern markers the overall winner is
the exact result. -/
theorem resolveMarkers_spec_witness :
    (resolveMarkers (fun _ _ => false) [] [".git", "go.mod"] [] dirGitGoMod).2 =
      max (checkExactMarkers [] [".git", "go.mod"] dirGitGoMod).2
        (checkPatternMarkers (fun _ _ => false) [] [] dirGitGoMod).2 ∧
    [".git", "go.mod"].find?
        (fun x => hasEntry dirGitGoMod x &&
          (getMarkerPriority [] x == bestExactPrio [] [".git", "go.mod"] dirGitGoMod)) =
      some (checkExactMarkers [] [".git", "go.mod"] dirGitGoMod).1 :=
  ⟨(resolveMarkers_spec (fun _ _ => false) [] [".git", "go.mod"] [] dirGitGoMod
      (by decide)).1,
   ((resolveMarkers_spec (fun _ _ => false) [] [".git", "go.mod"] [] dirGitGoMod
      (by decide)).2.2.2.2 "go.mod" (by decide) (by decide)).1⟩

/-- Every step of the pattern-phase fold either leaves the accumulator
unchanged or installs the name of a non-directory entry of the listing
that matches one of the patterns. -/
theorem checkPattern_fold_cases (fpMatch : String → String → Bool)
    (prios : List (String × Int)) (entries : List DirEntry) :
    ∀ (pats : List String) (b : String × Int),
      pats.foldl
        (fun best pattern =>
          match entries.find? (fun e => !e.isDir && fpMatch pattern e.name) with
          | some e =>
            let priority := getMarkerPriority prios pattern
            if best.2 < priority then (e.name, priority) else best
          | none => best) b = b ∨
      ∃ e ∈ entries, e.isDir = false ∧
        (pats.foldl
          (fun best pattern =>
            match entries.find? (fun e => !e.isDir && fpMatch pattern e.name) with
            | some e =>
              let priority := getMarkerPriority prios pattern
              if best.2 < priority then (e.name, priority) else best
            | none => best) b).1 = e.name ∧
        ∃ pat ∈ pats, fpMatch pat e.name = true := by
  intro pats
  induction pats with
  | nil => intro b; exact Or.inl rfl
  | cons pat rest ih =>
    intro b
    rw [List.foldl_cons]
    cases hfind : entries.find? (fun e => !e.isDir && fpMatch pat e.name) with
    | none =>
      simp only [hfind]
      rcases ih b with h | ⟨e, hmem, hdir, hname, pat', hpat', hmatch⟩
      · exact Or.inl h
      · exact Or.inr ⟨e, hmem, hdir, hname, pat', List.mem_cons_of_mem pat hpat', hmatch⟩
    | some e =>
      simp only [hfind]
      have hmem : e ∈ entries := List.mem_of_find?_eq_some hfind
      have hprop : (!e.isDir && fpMatch pat e.name) = true :=
        List.find?_some (p := fun (x : DirEntry) => !x.isDir && fpMatch pat x.name) hfind
      have hdir : e.isDir = false := by
        rcases Bool.and_eq_true_iff.mp hprop with ⟨h1, _⟩
        cases hb : e.isDir
        · rfl
        · rw [hb] at h1
          exact absurd h1 (by decide)
      have hmatch : fpMatch pat e.name = true :=
        (Bool.and_eq_true_iff.mp hprop).2
      by_cases hbeat : b.2 < getMarkerPriority prios pat
      · rw [if_pos hbeat]
        rcases ih (e.name, getMarkerPriority prios pat) with h | hex
        · refine Or.inr ⟨e, hmem, hdir, ?_, pat, List.mem_cons_self pat rest, hmatch⟩
          rw [h]
        · obtain ⟨e', hmem', hdir', hname', pat', hpat', hmatch'⟩ := hex
          exact Or.inr ⟨e', hmem', hdir', hname', pat',
            List.mem_cons_of_mem pat hpat', hmatch'⟩
      · rw [if_neg hbeat]
        rcases ih b with h | ⟨e', hmem', hdir', hname', pat', hpat', hmatch'⟩
        · exact Or.inl h
        · exact Or.inr ⟨e', hmem', hdir', hname', pat',
            List.mem_cons_of_mem pat hpat', hmatch'⟩

/-- C9: in the pattern phase, directory entries never qualify — if every
entry of the listing is a directory, the phase reports no marker — and
whenever the phase does report a marker, that marker is the literal name
of a non-directory entry of the listing that matches one of the configured
glob patterns, not the pattern string itself. -/
theorem checkPatternMarkers_spec (fpMatch : String → String → Bool)
    (prios : List (String × Int)) (patternMarkers : List String)
    (entries : List DirEntry) :
    ((∀ e ∈ entries, e.isDir = true) →
      checkPatternMarkers fpMatch prios patternMarkers entries = ("", 0)) ∧
    (checkPatternMarkers fpMatch prios patternMarkers entries ≠ ("", 0) →
      ∃ e ∈ entries, e.isDir = false ∧
        (checkPatternMarkers fpMatch prios patternMarkers entries).1 = e.name ∧
        ∃ pat ∈ patternMarkers, fpMatch pat e.name = true) := by
  constructor
  · intro halldir
    rcases checkPattern_fold_cases fpMatch prios entries patternMarkers ("", 0) with
      h | ⟨e, hmem, hdir, _, _⟩
    · exact h
    · rw [halldir e hmem] at hdir
      exact absurd hdir (by decide)
  · intro hne
    rcases checkPattern_fold_cases fpMatch prios entries patternMarkers ("", 0) with
      h | hex
    · exact absurd h hne
    · exact hex

/-- A concrete stand-in for `filepath.Match` restricted to the pattern
`*.csproj`, used by witnesses. -/
def matchCsproj (pat name : String) : Bool :=
  pat = "*.csproj" && strEndsWith name ".csproj"

/-- Witness for C9: a directory literally named `Something.csproj` alone
never qualifies, and in a listing holding the file `MyApp.csproj` the
reported marker is `MyApp.csproj` (an entry name), not `*.csproj`. -/
theorem checkPatternMarkers_spec_witness :
    checkPatternMarkers matchCsproj [] ["*.csproj"] [⟨"Something.csproj", true⟩] =
      ("", 0) ∧
    ∃ e ∈ [⟨"Something.csproj", true⟩, (⟨"MyApp.csproj", false⟩ : DirEntry)],
      e.isDir = false ∧
      (checkPatternMarkers matchCsproj [] ["*.csproj"]
        [⟨"Something.csproj", true⟩, ⟨"MyApp.csproj", false⟩]).1 = e.name ∧
      ∃ pat ∈ ["*.csproj"], matchCsproj pat e.name = true :=
  ⟨(checkPatternMarkers_spec matchCsproj [] ["*.csproj"]
      [⟨"Something.csproj", true⟩]).1 (by decide),
   (checkPatternMarkers_spec matchCsproj [] ["*.csproj"]
      [⟨"Something.csproj", true⟩, ⟨"MyApp.csproj", false⟩]).2 (by decide)⟩

/-! ### Ignore matcher stack (ignore.go: `IgnoreStack`, `Enter`, `Leave`,
`ShouldIgnore`) -/

/-- A compiled ignore-file matcher (library `go-gitignore`, external to the
repository): a predicate on the slash-joined relative path. -/
def Matcher := String → Bool

/-- `ignoreEntry`: a matcher pushed at a traversal depth, remembering the
directory its ignore file lives in. -/
structure IgnoreEntry where
  depth : Nat
  matcher : Matcher
  dir : List String

/-- `IgnoreStack`: the entry stack (head of the list = most recently
pushed, i.e. the end of the Go slice) and the enabled flag. The ignore
file-name list only drives which files `Enter` scans for, so it is
absorbed into `Enter`'s `matchers` argument. -/
structure IgnoreStack where
  stack : List IgnoreEntry
  enabled : Bool

/-- `NewIgnoreStack`. -/
def NewIgnoreStack (enabled : Bool) : IgnoreStack :=
  { stack := [], enabled := enabled }

/-- `IgnoreStack.Enter`: when enabled, push one entry per ignore file found
in `dir` (`matchers` lists their compiled matchers in file-name order;
absent or malformed files simply contribute nothing). Go appends to the
slice end, so with head-as-top the pushed block is reversed. -/
def IgnoreStack.Enter (st : IgnoreStack) (dir : List String) (depth : Nat)
    (matchers : List Matcher) : IgnoreStack :=
  if st.enabled then
    { st with
        stack := (matchers.map (fun m => ⟨depth, m, dir⟩)).reverse ++ st.stack }
  else st

/-- `IgnoreStack.Leave`: when enabled, pop from the top while the top
entry's depth is `≥ depth`. -/
def IgnoreStack.Leave (st : IgnoreStack) (depth : Nat) : IgnoreStack :=
  if st.enabled then
    { st with stack := st.stack.dropWhile (fun e => decide (depth ≤ e.depth)) }
  else st

/-- `filepath.Rel` on absolute paths, as components: strip the common
prefix, then one `..` per remaining component of the base. -/
def relComponents : List String → List String → List String
  | [], p => p
  | d :: ds, [] => (d :: ds).map (fun _ => "..")
  | d :: ds, p :: ps =>
    if d = p then relComponents ds ps
    else ((d :: ds).map (fun _ => "..")) ++ p :: ps

/-- The relative path string `ShouldIgnore` hands to a matcher: slash-join
the components (`filepath.ToSlash`), `"."` when they coincide, and a
trailing slash for directories — except that the source skips the slash
when the relative path is `"."`. -/
def relPathString (dir path : List String) (isDir : Bool) : String :=
  let r := relComponents dir path
  if r = [] then "."
  else
    let s := String.intercalate "/" r
    if isDir then s ++ "/" else s

/-- `IgnoreStack.ShouldIgnore`: false when disabled or empty; otherwise
true iff some active entry's matcher matches the relative path. The source
iterates from the most recently pushed entry and returns on the first
match; for the boolean result this is exactly an existential over the
stack. (`filepath.Rel` cannot fail for two absolute paths, so the
source's skip-on-error branch is dead in this model.) -/
def IgnoreStack.ShouldIgnore (st : IgnoreStack) (path : List String)
    (isDir : Bool) : Bool :=
  if !st.enabled || st.stack.isEmpty then false
  else st.stack.any (fun e => e.matcher (relPathString e.dir path isDir))

/-- Modelled from the claim's words, for comparison: identical to
`relPathString` except that the trailing slash is appended for every
directory query, including when the relative path is `"."`. -/
def relPathStringSpec (dir path : List String) (isDir : Bool) : String :=
  let r := relComponents dir path
  let s := if r = [] then "." else String.intercalate "/" r
  if isDir then s ++ "/" else s

/-- `ShouldIgnore` as the claim words it (slash appended for every
directory query). -/
def shouldIgnoreSpec (st : IgnoreStack) (path : List String)
    (isDir : Bool) : Bool :=
  if !st.enabled || st.stack.isEmpty then false
  else st.stack.any (fun e => e.matcher (relPathStringSpec e.dir path isDir))

/-- A matcher matching exactly the relative path `./`. -/
def matchDotSlash : Matcher := fun s => s == "./"

/-- A matcher matching every relative path. -/
def matchAll : Matcher := fun _ => true

/-- Counterexample to C7 as frozen: querying an entry's own directory
(relative path `"."`) as a directory, the source does not append the
trailing slash, so a matcher that matches `"./"` — as the claim's
unconditional append would produce — does not fire and `ShouldIgnore`
returns false where the claim's reading returns true. -/
theorem shouldIgnore_dot_counterexample :
    shouldIgnoreSpec ⟨[⟨0, matchDotSlash, ["a"]⟩], true⟩ ["a"] true = true ∧
    IgnoreStack.ShouldIgnore ⟨[⟨0, matchDotSlash, ["a"]⟩], true⟩ ["a"] true = false := by
  constructor <;> rfl

/-- C7 (amended): `ShouldIgnore` returns false whenever the stack is
disabled or empty; otherwise it returns true exactly when some stack entry
matches the queried path made relative to that entry's directory, with a
trailing slash appended for directory queries except when the relative
path is `"."`. -/
theorem shouldIgnore_spec (st : IgnoreStack) (path : List String) (isDir : Bool) :
    (st.enabled = false → st.ShouldIgnore path isDir = false) ∧
    (st.stack = [] → st.ShouldIgnore path isDir = false) ∧
    (st.ShouldIgnore path isDir = true ↔
      st.enabled = true ∧
      ∃ e ∈ st.stack, e.matcher (relPathString e.dir path isDir) = true) := by
  refine ⟨?_, ?_, ?_⟩
  · intro h
    unfold IgnoreStack.ShouldIgnore
    rw [h]
    rfl
  · intro h
    unfold IgnoreStack.ShouldIgnore
    rw [h]
    cases st.enabled <;> rfl
  · unfold IgnoreStack.ShouldIgnore
    cases he : st.enabled with
    | false => simp
    | true =>
      cases hst : st.stack with
      | nil => simp
      | cons a rest => simp [List.any_eq_true]

/-- Witness for C7: a disabled stack ignores nothing, an empty stack
ignores nothing, and a one-entry stack whose matcher matches `sub/`
ignores the subdirectory `sub` of its directory. -/
theorem shouldIgnore_spec_witness :
    IgnoreStack.ShouldIgnore ⟨[⟨0, matchAll, ["a"]⟩], false⟩ ["a", "sub"] true = false ∧
    IgnoreStack.ShouldIgnore ⟨[], true⟩ ["a", "sub"] true = false ∧
    IgnoreStack.ShouldIgnore ⟨[⟨0, matchDotSlash, ["a"]⟩], true⟩ ["a"] false = false :=
  ⟨(shouldIgnore_spec ⟨[⟨0, matchAll, ["a"]⟩], false⟩ ["a", "sub"] true).1 rfl,
   (shouldIgnore_spec ⟨[], true⟩ ["a", "sub"] true).2.1 rfl,
   by
    have h := (shouldIgnore_spec ⟨[⟨0, matchDotSlash, ["a"]⟩], true⟩ ["a"] false).2.2
    cases hb : IgnoreStack.ShouldIgnore ⟨[⟨0, matchDotSlash, ["a"]⟩], true⟩ ["a"] false
    · rfl
    · obtain ⟨-, e, hmem, hm⟩ := h.mp hb
      rcases List.mem_singleton.mp hmem with rfl
      exact absurd hm (by decide)⟩

/-- Counterexample to C8 as frozen: the state reached by
`Enter dir1 depth 5` then `Enter dir2 depth 3` (both directories carrying
an ignore file) holds the depth-5 entry below the depth-3 top;
`Leave 4` pops from the top only while `depth ≥ 4`, stops at the depth-3
top, and leaves the depth-5 entry on the stack — the claim says every
entry with depth ≥ 4 is removed. -/
theorem leave_counterexample :
    ((((NewIgnoreStack true).Enter ["a"] 5 [matchAll]).Enter ["a", "b"] 3
        [matchAll]).Leave 4).stack.any (fun e => decide (4 ≤ e.depth)) = true := by
  rfl

/-- On a stack whose depths are nonincreasing from the top, popping while
the top's depth is `≥ d` removes exactly the entries of depth `≥ d`. -/
theorem dropWhile_depth_filter (d : Nat) :
    ∀ (l : List IgnoreEntry), l.Pairwise (fun a b => b.depth ≤ a.depth) →
      l.dropWhile (fun e => decide (d ≤ e.depth)) =
        l.filter (fun e => decide (e.depth < d)) := by
  intro l
  induction l with
  | nil => intro _; rfl
  | cons a rest ih =>
    intro hp
    have hall : ∀ e ∈ rest, e.depth ≤ a.depth := List.pairwise_cons.mp hp |>.1
    have hrest : rest.Pairwise (fun a b => b.depth ≤ a.depth) :=
      List.pairwise_cons.mp hp |>.2
    by_cases hd : d ≤ a.depth
    · rw [List.dropWhile_cons_of_pos (by simpa using hd),
        List.filter_cons_of_neg (by simpa using not_lt.mpr hd)]
      exact ih hrest
    · rw [List.dropWhile_cons_of_neg (by simpa using hd),
        List.filter_cons_of_pos (by simpa using not_le.mp hd)]
      congr 1
      refine (List.filter_eq_self.mpr ?_).symm
      intro e hmem
      have hle : e.depth ≤ a.depth := hall e hmem
      simp only [decide_eq_true_eq]
      omega

/-- C8 (amended): on every stack whose entry depths are nonincreasing from
the most recently pushed entry downwards — the invariant the tree walker
maintains, since it only pushes at depths no smaller than everything still
on the stack — and which is empty whenever disabled (disabled stacks never
grow), `Leave d` removes exactly the entries with depth `≥ d`. -/
theorem leave_spec (st : IgnoreStack) (d : Nat)
    (hsort : st.stack.Pairwise (fun a b => b.depth ≤ a.depth))
    (hdis : st.enabled = false → st.stack = []) :
    (st.Leave d).stack = st.stack.filter (fun e => decide (e.depth < d)) := by
  unfold IgnoreStack.Leave
  cases he : st.enabled with
  | true =>
    rw [if_pos rfl]
    exact dropWhile_depth_filter d st.stack hsort
  | false =>
    rw [if_neg (by decide)]
    rw [hdis he]
    rfl

/-- Witness for C8: the walker-shaped stack built by `Enter` at depth 0
then depth 1 is depth-sorted; `Leave 1` pops exactly the depth-1 entry and
keeps the depth-0 entry. -/
theorem leave_spec_witness :
    ((((NewIgnoreStack true).Enter ["a"] 0 [matchAll]).Enter ["a", "b"] 1
        [matchDotSlash]).Leave 1).stack.length = 1 ∧
    (((((NewIgnoreStack true).Enter ["a"] 0 [matchAll]).Enter ["a", "b"] 1
        [matchDotSlash]).Leave 1).stack.all (fun e => decide (e.depth = 0))) = true := by
  have h := leave_spec
    (((NewIgnoreStack true).Enter ["a"] 0 [matchAll]).Enter ["a", "b"] 1
      [matchDotSlash]) 1
    (by
      constructor
      · intro b hb
        rcases List.mem_singleton.mp hb with rfl
        exact Nat.zero_le _
      · exact List.pairwise_singleton _ _)
    (by intro h; exact absurd h (by decide))
  rw [h]
  exact ⟨rfl, rfl⟩

/-! ### Discovery orchestrator: dedup and sort (discover.go, `Discover`
lines 94–111) -/

/-- The channel-collection loop of `Discover`: keep a project only when its
path has not been seen yet (first occurrence wins), in arrival order.
`seen` models the `map[string]bool`. -/
def dedupGo (seen : List String) : List Project → List Project
  | [] => []
  | p :: rest =>
    if p.Path ∈ seen then dedupGo seen rest
    else p :: dedupGo (p.Path :: seen) rest

/-- Deduplication by path, first occurrence winning. -/
def dedupByPath (l : List Project) : List Project :=
  dedupGo [] l

/-- The nonstrict version of the `sort.Slice` comparator of `Discover`:
`p` may precede `q` iff `p` has strictly higher priority, or equal
priority and path no greater (priority descending, path ascending). -/
def projLE (p q : Project) : Prop :=
  q.Priority < p.Priority ∨ (p.Priority = q.Priority ∧ p.Path ≤ q.Path)

instance : DecidableRel projLE := fun p q => by
  unfold projLE
  infer_instance

instance : IsTotal Project projLE := by
  constructor
  intro p q
  unfold projLE
  rcases lt_trichotomy p.Priority q.Priority with h | h | h
  · exact Or.inr (Or.inl h)
  · rcases le_total p.Path q.Path with hp | hp
    · exact Or.inl (Or.inr ⟨h, hp⟩)
    · exact Or.inr (Or.inr ⟨h.symm, hp⟩)
  · exact Or.inl (Or.inl h)

instance : IsTrans Project projLE := by
  constructor
  intro p q r hpq hqr
  unfold projLE at *
  rcases hpq with h1 | ⟨h1, h1'⟩ <;> rcases hqr with h2 | ⟨h2, h2'⟩
  · exact Or.inl (by omega)
  · exact Or.inl (by omega)
  · exact Or.inl (by omega)
  · exact Or.inr ⟨by omega, le_trans h1' h2'⟩

/-- The collection stage of `Discover`: deduplicate the received projects
by path (first wins), then sort by priority descending / path ascending.
`sort.Slice` is not stability-guaranteed, but after deduplication the
comparator is a strict total order on the distinct paths, so any sorted
permutation — here insertion sort — models it faithfully. -/
def discoverCollect (arrived : List Project) : List Project :=
  (dedupByPath arrived).insertionSort projLE

theorem dedupGo_subset :
    ∀ (l : List Project) (seen : List String) (p : Project),
      p ∈ dedupGo seen l → p ∈ l := by
  intro l
  induction l with
  | nil => intro seen p h; exact absurd h (List.not_mem_nil p)
  | cons a rest ih =>
    intro seen p h
    unfold dedupGo at h
    by_cases hs : a.Path ∈ seen
    · rw [if_pos hs] at h
      exact List.mem_cons_of_mem a (ih seen p h)
    · rw [if_neg hs] at h
      rcases List.mem_cons.mp h with h | h
      · exact h ▸ List.mem_cons_self a rest
      · exact List.mem_cons_of_mem a (ih _ p h)

theorem dedupGo_covers :
    ∀ (l : List Project) (seen : List String) (p : Project),
      p ∈ l → p.Path ∉ seen → ∃ q ∈ dedupGo seen l, q.Path = p.Path := by
  intro l
  induction l with
  | nil => intro seen p h; exact absurd h (List.not_mem_nil p)
  | cons a rest ih =>
    intro seen p hmem hseen
    unfold dedupGo
    rcases List.mem_cons.mp hmem with rfl | hmem'
    · rw [if_neg hseen]
      exact ⟨p, List.mem_cons_self p _, rfl⟩
    · by_cases hs : a.Path ∈ seen
      · rw [if_pos hs]
        exact ih seen p hmem' hseen
      · rw [if_neg hs]
        by_cases heq : p.Path = a.Path
        · exact ⟨a, List.mem_cons_self a _, heq.symm⟩
        · have hseen' : p.Path ∉ a.Path :: seen := by
            intro h
            rcases List.mem_cons.mp h with h | h
            · exact heq h
            · exact hseen h
          obtain ⟨q, hq, hq'⟩ := ih (a.Path :: seen) p hmem' hseen'
          exact ⟨q, List.mem_cons_of_mem a hq, hq'⟩

theorem dedupGo_paths :
    ∀ (l : List Project) (seen : List String),
      (dedupGo seen l).Pairwise (fun p q => p.Path ≠ q.Path) ∧
      ∀ q ∈ dedupGo seen l, q.Path ∉ seen := by
  intro l
  induction l with
  | nil =>
    intro seen
    exact ⟨List.Pairwise.nil, fun q h => absurd h (List.not_mem_nil q)⟩
  | cons a rest ih =>
    intro seen
    unfold dedupGo
    by_cases hs : a.Path ∈ seen
    · rw [if_pos hs]
      exact ih seen
    · rw [if_neg hs]
      obtain ⟨ihp, ihs⟩ := ih (a.Path :: seen)
      refine ⟨List.pairwise_cons.mpr ⟨?_, ihp⟩, ?_⟩
      · intro q hq
        have := ihs q hq
        intro heq
        exact this (heq ▸ List.mem_cons_self a.Path seen)
      · intro q hq
        rcases List.mem_cons.mp hq with rfl | hq'
        · exact hs
        · intro hmem
          exact ihs q hq' (List.mem_cons_of_mem _ hmem)

theorem dedupByPath_nodup (l : List Project) : (dedupByPath l).Nodup := by
  have h := (dedupGo_paths l []).1
  exact List.Pairwise.imp (fun hne heq => hne (congrArg Project.Path heq)) h

theorem mem_dedupByPath_iff (l : List Project)
    (hkey : ∀ p ∈ l, ∀ q ∈ l, p.Path = q.Path → p = q) (p : Project) :
    p ∈ dedupByPath l ↔ p ∈ l := by
  constructor
  · exact dedupGo_subset l [] p
  · intro hmem
    obtain ⟨q, hq, hq'⟩ := dedupGo_covers l [] p hmem (List.not_mem_nil _)
    have hql : q ∈ l := dedupGo_subset l [] q hq
    rw [← hkey q hql p hmem hq']
    exact hq

/-- Two sorted lists of projects that are permutations of each other and
whose paths determine their records are equal (the comparator is
antisymmetric once paths are a key). -/
theorem sorted_keyed_perm_eq :
    ∀ (l₁ l₂ : List Project), l₁.Perm l₂ → l₁.Sorted projLE → l₂.Sorted projLE →
      (∀ p ∈ l₁, ∀ q ∈ l₁, p.Path = q.Path → p = q) → l₁ = l₂ := by
  intro l₁
  induction l₁ with
  | nil =>
    intro l₂ hperm _ _ _
    exact List.Perm.nil_eq hperm
  | cons a t₁ ih =>
    intro l₂ hperm hs₁ hs₂ hkey
    cases l₂ with
    | nil => exact absurd hperm.symm (by simp)
    | cons b t₂ =>
      have hb : b = a := by
        by_contra hne
        have hbmem : b ∈ a :: t₁ := hperm.mem_iff.mpr (List.mem_cons_self b t₂)
        have hbmem' : b ∈ t₁ := by
          rcases List.mem_cons.mp hbmem with h | h
          · exact absurd h hne
          · exact h
        have hamem : a ∈ b :: t₂ := hperm.mem_iff.mp (List.mem_cons_self a t₁)
        have hamem' : a ∈ t₂ := by
          rcases List.mem_cons.mp hamem with h | h
          · exact absurd h.symm hne
          · exact h
        have hab : projLE a b := (List.sorted_cons.mp hs₁).1 b hbmem'
        have hba : projLE b a := (List.sorted_cons.mp hs₂).1 a hamem'
        have hpath : a.Path = b.Path := by
          rcases hab with h4 | ⟨h4, h4'⟩ <;> rcases hba with h5 | ⟨h5, h5'⟩
          · exact absurd h4 (by omega)
          · exact absurd h4 (by omega)
          · exact absurd h5 (by omega)
          · exact le_antisymm h4' h5'
        exact hne (hkey a (List.mem_cons_self a t₁) b hbmem hpath).symm
      subst hb
      have ht : t₁.Perm t₂ := hperm.cons_inv
      rw [ih t₂ ht (List.sorted_cons.mp hs₁).2 (List.sorted_cons.mp hs₂).2
        (fun p hp q hq => hkey p (List.mem_cons_of_mem _ hp) q (List.mem_cons_of_mem _ hq))]

theorem dedupByPath_perm (l₁ l₂ : List Project) (hperm : l₁.Perm l₂)
    (hkey : ∀ p ∈ l₁, ∀ q ∈ l₁, p.Path = q.Path → p = q) :
    (dedupByPath l₁).Perm (dedupByPath l₂) := by
  have hkey₂ : ∀ p ∈ l₂, ∀ q ∈ l₂, p.Path = q.Path → p = q := fun p hp q hq =>
    hkey p (hperm.mem_iff.mpr hp) q (hperm.mem_iff.mpr hq)
  rw [List.perm_ext_iff_of_nodup (dedupByPath_nodup l₁) (dedupByPath_nodup l₂)]
  intro p
  rw [mem_dedupByPath_iff l₁ hkey p, mem_dedupByPath_iff l₂ hkey₂ p, hperm.mem_iff]

/-- C5: the collection stage deduplicates by path (first occurrence wins)
and sorts by priority descending then path ascending, so whenever the
walkers deliver the same multiset of projects — in which, as walker
output, two projects with the same path are the same record — in any two
orders, the returned list is identical; moreover it is sorted by the
comparator and holds each path at most once. -/
theorem discoverCollect_deterministic (l₁ l₂ : List Project) (hperm : l₁.Perm l₂)
    (hkey : ∀ p ∈ l₁, ∀ q ∈ l₁, p.Path = q.Path → p = q) :
    discoverCollect l₁ = discoverCollect l₂ ∧
    (discoverCollect l₁).Sorted projLE ∧
    (discoverCollect l₁).Pairwise (fun p q => p.Path ≠ q.Path) := by
  have hdperm := dedupByPath_perm l₁ l₂ hperm hkey
  have hkey₁ : ∀ p ∈ dedupByPath l₁, ∀ q ∈ dedupByPath l₁, p.Path = q.Path → p = q :=
    fun p hp q hq => hkey p (dedupGo_subset l₁ [] p hp) q (dedupGo_subset l₁ [] q hq)
  refine ⟨?_, ?_, ?_⟩
  · apply sorted_keyed_perm_eq
    · exact ((List.perm_insertionSort projLE (dedupByPath l₁)).trans hdperm).trans
        (List.perm_insertionSort projLE (dedupByPath l₂)).symm
    · exact List.sorted_insertionSort projLE (dedupByPath l₁)
    · exact List.sorted_insertionSort projLE (dedupByPath l₂)
    · intro p hp q hq
      exact hkey₁ p ((List.perm_insertionSort projLE _).mem_iff.mp hp)
        q ((List.perm_insertionSort projLE _).mem_iff.mp hq)
  · exact List.sorted_insertionSort projLE (dedupByPath l₁)
  · have hnd := (dedupGo_paths l₁ []).1
    exact ((List.perm_insertionSort projLE (dedupByPath l₁)).pairwise_iff
      (fun hne heq => hne heq.symm)).mpr hnd

/-- Witness for C5: two arrival orders of the same three projects (one a
path duplicate) collapse to the same sorted, deduplicated list. -/
theorem discoverCollect_deterministic_witness :
    discoverCollect
        [⟨"/r/a", ".git", 1⟩, ⟨"/r/b", "go.mod", 10⟩, ⟨"/r/a", ".git", 1⟩] =
      discoverCollect
        [⟨"/r/b", "go.mod", 10⟩, ⟨"/r/a", ".git", 1⟩, ⟨"/r/a", ".git", 1⟩] :=
  (discoverCollect_deterministic
    [⟨"/r/a", ".git", 1⟩, ⟨"/r/b", "go.mod", 10⟩, ⟨"/r/a", ".git", 1⟩]
    [⟨"/r/b", "go.mod", 10⟩, ⟨"/r/a", ".git", 1⟩, ⟨"/r/a", ".git", 1⟩]
    (by decide) (by decide)).1

/-! ### Tree walker (discover.go, `walkPath` / `matchPattern`) -/

/-- `matchPattern` (discover.go): exact equality, `*suffix`, `prefix*`,
then `filepath.Match` (the opaque `fpMatch` argument) as fallback. -/
def matchPattern (fpMatch : String → String → Bool) (name pattern : String) : Bool :=
  if name = pattern then true
  else if strStartsWith pattern "*" then strEndsWith name (strDropFirst pattern)
  else if strEndsWith pattern "*" then strStartsWith name (strDropLast pattern)
  else fpMatch pattern name

/-- `filepath.Base` on a component path. -/
def baseName (path : List String) : String :=
  path.getLastD "/"

/-- The slash-joined absolute path string of a component path (what Go
carries in `path` and stores in `Project.Path`). -/
def pathString (path : List String) : String :=
  path.foldl (fun acc c => acc ++ "/" ++ c) ""

/- A directory tree: the listing `os.ReadDir` returns, the compiled
matchers of the ignore files the directory contains (in ignore-file-name
order; absent/malformed files contribute nothing), and the subdirectories
`filepath.WalkDir` descends into, in traversal order. -/
mutual
inductive FsTree where
  | node (entries : List DirEntry) (matchers : List Matcher) (children : FsForest) : FsTree
inductive FsForest where
  | nil : FsForest
  | cons (name : String) (tree : FsTree) (rest : FsForest) : FsForest
end

/- `walkPath`'s visit of one directory, in source order: the ignore check
on the incoming stack (prune on match), `Enter` for this directory's own
ignore files, the max-depth check, the exclude check, marker resolution,
and emission plus — when `Nested` is off — pruning of the subtree.

The Go loop tracks `previousDepth` and calls `Leave(currentDepth)` when not
descending, which pops exactly the entries pushed inside previously
finished sibling subtrees (their depths are `≥ currentDepth`, all ancestor
depths are smaller, and the stack is depth-sorted). Passing each child the
parent's post-`Enter` stack is the recursive rendering of that same
discipline. -/
mutual
def walkTree (fpMatch : String → String → Bool) (cfg : Config)
    (path : List String) (depth : Nat) (stack : List IgnoreEntry) :
    FsTree → List Project
  | .node entries matchers children =>
    if IgnoreStack.ShouldIgnore ⟨stack, !cfg.NoIgnore⟩ path true then []
    else
      let stack' := (IgnoreStack.Enter ⟨stack, !cfg.NoIgnore⟩ path depth matchers).stack
      if (depth : Int) > cfg.MaxDepth then []
      else if cfg.Excludes.any (fun ex => matchPattern fpMatch (baseName path) ex) then []
      else
        let best :=
          resolveMarkers fpMatch cfg.Priorities cfg.ExactMarkers cfg.PatternMarkers entries
        if best.1 ≠ "" then
          ⟨pathString path, best.1, best.2⟩ ::
            (if cfg.Nested then walkForest fpMatch cfg path depth stack' children else [])
        else walkForest fpMatch cfg path depth stack' children
def walkForest (fpMatch : String → String → Bool) (cfg : Config)
    (path : List String) (depth : Nat) (stack : List IgnoreEntry) :
    FsForest → List Project
  | .nil => []
  | .cons name tree rest =>
    walkTree fpMatch cfg (path ++ [name]) (depth + 1) stack tree ++
      walkForest fpMatch cfg path depth stack rest
end

theorem pathString_append (path : List String) (name : String) :
    pathString (path ++ [name]) = pathString path ++ "/" ++ name := by
  unfold pathString
  rw [List.foldl_append]
  rfl

theorem pathString_append_length (path : List String) (name : String) :
    (pathString path).length < (pathString (path ++ [name])).length := by
  rw [pathString_append, String.length_append, String.length_append]
  have h : ("/" : String).length = 1 := rfl
  omega

mutual
/-- Every project a subtree walk emits sits at the visited directory or
below it. -/
theorem walkTree_path_le (fpMatch : String → String → Bool) (cfg : Config)
    (path : List String) (depth : Nat) (stack : List IgnoreEntry) (t : FsTree) :
    ∀ q ∈ walkTree fpMatch cfg path depth stack t,
      (pathString path).length ≤ q.Path.length := by
  cases t with
  | node entries matchers children =>
    intro q hq
    simp only [walkTree] at hq
    split at hq
    · exact absurd hq (List.not_mem_nil q)
    · split at hq
      · exact absurd hq (List.not_mem_nil q)
      · split at hq
        · exact absurd hq (List.not_mem_nil q)
        · split at hq
          · rcases List.mem_cons.mp hq with rfl | hq'
            · exact le_refl _
            · split at hq'
              · exact le_of_lt (walkForest_path_lt fpMatch cfg path depth _ children q hq')
              · exact absurd hq' (List.not_mem_nil q)
          · exact le_of_lt (walkForest_path_lt fpMatch cfg path depth _ children q hq)
/-- Every project a forest walk emits sits strictly below the visited
directory. -/
theorem walkForest_path_lt (fpMatch : String → String → Bool) (cfg : Config)
    (path : List String) (depth : Nat) (stack : List IgnoreEntry) (f : FsForest) :
    ∀ q ∈ walkForest fpMatch cfg path depth stack f,
      (pathString path).length < q.Path.length := by
  cases f with
  | nil =>
    intro q hq
    exact absurd hq (List.not_mem_nil q)
  | cons name tree rest =>
    intro q hq
    rcases List.mem_append.mp hq with h | h
    · have h1 := walkTree_path_le fpMatch cfg (path ++ [name]) (depth + 1) stack tree q h
      have h2 := pathString_append_length path name
      omega
    · exact walkForest_path_lt fpMatch cfg path depth stack rest q h
end

/-- C6: at a visited directory that is not ignored, within depth, not
excluded, and where a marker wins, the walker emits the project for that
directory and: with `Nested` off it prunes the whole subtree (the project
is the entire output); with `Nested` on it continues into the children
normally (with this directory's ignore scope pushed), so sub-projects can
be returned, still subject to the same per-directory checks. In both modes
exactly one emitted project carries this directory's path. -/
theorem walkTree_marker_spec (fpMatch : String → String → Bool) (cfg : Config)
    (path : List String) (depth : Nat) (stack : List IgnoreEntry)
    (entries : List DirEntry) (matchers : List Matcher) (children : FsForest)
    (hig : IgnoreStack.ShouldIgnore ⟨stack, !cfg.NoIgnore⟩ path true = false)
    (hdepth : ¬((depth : Int) > cfg.MaxDepth))
    (hexcl : cfg.Excludes.any (fun ex => matchPattern fpMatch (baseName path) ex) = false)
    (hwin : (resolveMarkers fpMatch cfg.Priorities cfg.ExactMarkers cfg.PatternMarkers
      entries).1 ≠ "") :
    walkTree fpMatch cfg path depth stack (.node entries matchers children) =
      ⟨pathString path,
        (resolveMarkers fpMatch cfg.Priorities cfg.ExactMarkers cfg.PatternMarkers entries).1,
        (resolveMarkers fpMatch cfg.Priorities cfg.ExactMarkers cfg.PatternMarkers entries).2⟩ ::
      (if cfg.Nested then
        walkForest fpMatch cfg path depth
          ((IgnoreStack.Enter ⟨stack, !cfg.NoIgnore⟩ path depth matchers).stack) children
      else []) ∧
    (cfg.Nested = false →
      walkTree fpMatch cfg path depth stack (.node entries matchers children) =
        [⟨pathString path,
          (resolveMarkers fpMatch cfg.Priorities cfg.ExactMarkers cfg.PatternMarkers entries).1,
          (resolveMarkers fpMatch cfg.Priorities cfg.ExactMarkers cfg.PatternMarkers
            entries).2⟩]) ∧
    (walkTree fpMatch cfg path depth stack (.node entries matchers children)).countP
      (fun q => q.Path == pathString path) = 1 := by
  have heq : walkTree fpMatch cfg path depth stack (.node entries matchers children) =
      ⟨pathString path,
        (resolveMarkers fpMatch cfg.Priorities cfg.ExactMarkers cfg.PatternMarkers entries).1,
        (resolveMarkers fpMatch cfg.Priorities cfg.ExactMarkers cfg.PatternMarkers entries).2⟩ ::
      (if cfg.Nested then
        walkForest fpMatch cfg path depth
          ((IgnoreStack.Enter ⟨stack, !cfg.NoIgnore⟩ path depth matchers).stack) children
      else []) := by
    simp only [walkTree, hig, Bool.false_eq_true, if_false, if_neg hdepth, hexcl,
      if_pos hwin]
  refine ⟨heq, ?_, ?_⟩
  · intro hnested
    rw [heq, hnested]
    rfl
  · have hzero : (if cfg.Nested then
        walkForest fpMatch cfg path depth
          ((IgnoreStack.Enter ⟨stack, !cfg.NoIgnore⟩ path depth matchers).stack) children
      else []).countP (fun q => q.Path == pathString path) = 0 := by
      cases hn : cfg.Nested with
      | false => rfl
      | true =>
        rw [if_pos rfl]
        rw [List.countP_eq_zero]
        intro q hq
        have hlt := walkForest_path_lt fpMatch cfg path depth _ children q hq
        simp only [beq_iff_eq]
        intro hcontra
        rw [hcontra] at hlt
        exact absurd hlt (lt_irrefl _)
    rw [heq, List.countP_cons, hzero]
    simp

/-- A configuration for the C6 witness: exact marker `.git`, nested
discovery on, ignore files off. -/
def cfgNestedWalk : Config :=
  { SearchPaths := [], Markers := [], MaxDepth := 3, Excludes := [], CacheTTL := 0,
    NoIgnore := true, Nested := true, Priorities := [], ExactMarkers := [".git"],
    PatternMarkers := [] }

/-- A project directory containing `.git` with a nested project `sub`
also containing `.git`. -/
def treeNestedGit : FsTree :=
  .node [⟨".git", true⟩] [] (.cons "sub" (.node [⟨".git", true⟩] [] .nil) .nil)

/-- Witness for C6 at a concrete tree: the marked directory is emitted
with its own path exactly once, and with `Nested` on the walk equals the
project followed by the children's walk (which here returns the nested
sub-project). -/
theorem walkTree_marker_spec_witness :
    (walkTree (fun _ _ => false) cfgNestedWalk ["home", "proj"] 0 [] treeNestedGit).countP
      (fun q => q.Path == pathString ["home", "proj"]) = 1 ∧
    walkTree (fun _ _ => false) cfgNestedWalk ["home", "proj"] 0 [] treeNestedGit =
      [⟨"/home/proj", ".git", 1⟩, ⟨"/home/proj/sub", ".git", 1⟩] :=
  ⟨(walkTree_marker_spec (fun _ _ => false) cfgNestedWalk ["home", "proj"] 0 []
      [⟨".git", true⟩] [] (.cons "sub" (.node [⟨".git", true⟩] [] .nil) .nil)
      (by decide) (by decide) (by decide) (by decide)).2.2,
   by decide⟩

end PJ
